import Mathlib

set_option maxHeartbeats 1000000
set_option linter.unusedVariables false

namespace FastSLAM

/-! Shallow embedding of SLAM/fastSLAM.py.  Poses and angles are modelled by
real numbers; particle weights and all quantities entering branch decisions of
the resampler are exact rationals, so that the decision structure of the code
is decidable and concrete runs can be evaluated.  Randomness is passed in
explicitly: each function that draws random numbers in the source takes the
drawn values as an argument. -/

/-- Time tick in seconds, the module constant DT = 0.1 of the source. -/
noncomputable def DT : ℝ := 0.1

/-- Particle count, the module constant N_PARTICLE = 100 of the source.  The
definitions below take the particle count as an explicit parameter n so that
the specification properties quantified over all N can be stated; the source
program instantiates n with this constant. -/
def N_PARTICLE : ℕ := 100

/-- Resampling threshold, the module constant NTH = N_PARTICLE / 1.5 of the
source, as a function of the particle count. -/
def NTH (n : ℕ) : ℚ := (n : ℚ) / 1.5

/-- Python modulo on real numbers with the divisor sign convention of Python:
a % b = a - b * floor (a / b).  For a positive divisor the result is
non-negative. -/
noncomputable def pymod (a b : ℝ) : ℝ := a - b * (⌊a / b⌋ : ℤ)

/-- Embedding of pi_2_pi from the source:
(angle + math.pi) % (2 * math.pi) - math.pi. -/
noncomputable def pi_2_pi (angle : ℝ) : ℝ :=
  pymod (angle + Real.pi) (2 * Real.pi) - Real.pi

/-- Embedding of motion_model from the source.  The state is the triple
x, y, yaw and the control is the pair v, omega.  The source computes
F @ x + B @ u with F the 3 by 3 identity matrix and B the matrix with rows
(DT cos yaw, 0), (DT sin yaw, 0), (0, DT); the entrywise products of that
matrix arithmetic are written out below, after which the yaw entry is
normalized with pi_2_pi. -/
noncomputable def motion_model (x : ℝ × ℝ × ℝ) (u : ℝ × ℝ) : ℝ × ℝ × ℝ :=
  let x1 := 1.0 * x.1 + 0 * x.2.1 + 0 * x.2.2 + (DT * Real.cos x.2.2) * u.1 + 0 * u.2
  let y1 := 0 * x.1 + 1.0 * x.2.1 + 0 * x.2.2 + (DT * Real.sin x.2.2) * u.1 + 0 * u.2
  let yaw1 := 0 * x.1 + 0 * x.2.1 + 1.0 * x.2.2 + 0 * u.1 + DT * u.2
  (x1, y1, pi_2_pi yaw1)

/-- Embedding of the Particle class of the source.  The pose fields are real
valued; the weight is an exact rational.  The landmark mean matrix lm of shape
N_LM by 2 is a list of pairs of rows, and the landmark covariance matrix lmP
of shape N_LM times 2 by 2 is likewise a list of pairs of rows. -/
structure Particle where
  w : ℚ
  x : ℝ
  y : ℝ
  yaw : ℝ
  lm : List (ℝ × ℝ)
  lmP : List (ℝ × ℝ)

instance : Inhabited Particle :=
  ⟨{ w := 0, x := 0, y := 0, yaw := 0, lm := [], lmP := [] }⟩

/-- Particle value with zero weight, zero pose and no landmark rows, used as a
concrete input in degenerate weight scenarios. -/
def pzero : Particle :=
  { w := 0, x := 0, y := 0, yaw := 0, lm := [], lmP := [] }

/-- Embedding of the constructor Particle.__init__ with particle count n:
weight 1 / n, pose at the origin, and zero matrices for the landmark means and
covariances (np.zeros of shapes N_LM by LM_SIZE and N_LM times LM_SIZE by
LM_SIZE, with LM_SIZE = 2). -/
def Particle.init (n : ℕ) (N_LM : ℕ) : Particle :=
  { w := 1 / (n : ℚ), x := 0, y := 0, yaw := 0,
    lm := List.replicate N_LM (0, 0),
    lmP := List.replicate (N_LM * 2) (0, 0) }

/-- Embedding of the particle construction in main: a list comprehension
building n fresh particles. -/
def initParticles (n : ℕ) (N_LM : ℕ) : List Particle :=
  List.replicate n (Particle.init n N_LM)

/-- Embedding of the body of the loop of predict_particles for one particle:
the noisy control is the control plus the drawn noise vector, and the pose is
replaced by the output of motion_model on it; the weight and the landmark data
are untouched. -/
noncomputable def predictOne (u : ℝ × ℝ) (ε : ℝ × ℝ) (p : Particle) : Particle :=
  let px := motion_model (p.x, p.y, p.yaw) (u.1 + ε.1, u.2 + ε.2)
  { p with x := px.1, y := px.2.1, yaw := px.2.2 }

/-- Loop of predict_particles over the particle list, threading the index used
to draw the per-particle noise.  The source iterates for i in
range(N_PARTICLE) over a list of exactly that length, which on such a list is
the indexed map below; the noise stream gives the value of the random draw
(np.random.randn(1, 2) @ R ** 0.5).T of iteration i. -/
noncomputable def predictAux (u : ℝ × ℝ) (noise : ℕ → ℝ × ℝ) :
    ℕ → List Particle → List Particle
  | _, [] => []
  | i, p :: ps => predictOne u (noise i) p :: predictAux u noise (i + 1) ps

/-- Embedding of predict_particles from the source. -/
noncomputable def predict_particles (ps : List Particle) (u : ℝ × ℝ)
    (noise : ℕ → ℝ × ℝ) : List Particle :=
  predictAux u noise 0 ps

/-- Embedding of normalize_weight from the source with particle count n.  The
sum of the weights is computed; if it is zero the division raises
ZeroDivisionError and the except branch resets every weight to 1 / n,
otherwise every weight is divided by the sum. -/
def normalize_weight (n : ℕ) (ps : List Particle) : List Particle :=
  let sumw := (ps.map (fun p => p.w)).sum
  if sumw = 0 then
    ps.map (fun p => { p with w := 1 / (n : ℚ) })
  else
    ps.map (fun p => { p with w := p.w / sumw })

/-- Effective particle number of the source: Neff = 1 / (pw . pw), the
reciprocal of the sum of the squared weights. -/
def neff (pw : List ℚ) : ℚ := 1 / (pw.map (fun w => w * w)).sum

/-- Cumulative sums, the embedding of np.cumsum on a weight vector. -/
def cumsum (l : List ℚ) : List ℚ := (l.scanl (· + ·) 0).tail

/-- Embedding of the resample targets of the source: base is the sequence
i / n for i below n, and resampleid adds to each entry the drawn uniform
random number of that slot divided by n (np.random.rand(n) / n).  The stream
rs gives the drawn uniform values in the interval from 0 inclusive to 1
exclusive. -/
def resampleid (n : ℕ) (rs : ℕ → ℚ) : List ℚ :=
  (List.range n).map (fun (i : ℕ) => (i : ℚ) / n + rs i / n)

/-- Embedding of the inner while loop of the resampling scan: while ind is
below the last index of wcum and the target exceeds the entry of wcum at ind,
increment ind.  The loop runs at most the length of wcum many times, which is
passed as structural fuel. -/
def selectIdx (wcum : List ℚ) (t : ℚ) : ℕ → ℕ → ℕ
  | 0, ind => ind
  | fuel + 1, ind =>
    if ind < wcum.length - 1 ∧ wcum.getD ind 0 < t then
      selectIdx wcum t fuel (ind + 1)
    else ind

/-- Embedding of the outer for loop of the resampling scan, carrying the index
ind across successive targets and collecting the selected indices. -/
def scanLoop (wcum : List ℚ) : ℕ → List ℚ → List ℕ
  | _, [] => []
  | ind, t :: ts =>
    let r := selectIdx wcum t wcum.length ind
    r :: scanLoop wcum r ts

/-- Index list that resampling computes from the normalized weights and the
drawn uniform values: the monotonic scan of the resample targets over the
cumulative weights. -/
def resampleInds (pw : List ℚ) (n : ℕ) (rs : ℕ → ℚ) : List ℕ :=
  scanLoop (cumsum pw) 0 (resampleid n rs)

/-- One iteration of the copy loop of resampling: the particle at slot i is
overwritten with the pose, landmark data and a weight of 1 / n taken from the
particle currently at slot j.  Because tparticles is a shallow slice copy of
the particle list, the read at slot j sees the current state of the list, not
a snapshot. -/
def copyStep (n : ℕ) (st : List Particle) (i j : ℕ) : List Particle :=
  st.set i { st.getD j default with w := 1 / (n : ℚ) }

/-- The copy loop of resampling over all slots in order. -/
def copyLoop (n : ℕ) (ps : List Particle) (inds : List ℕ) : List Particle :=
  (List.range inds.length).foldl (fun st i => copyStep n st i (inds.getD i 0)) ps

/-- Embedding of resampling from the source with particle count n: normalize
the weights, compute Neff, and if it is below NTH run the low variance style
redraw with the drawn uniform stream rs, else return the normalized set
unchanged. -/
def resampling (n : ℕ) (ps : List Particle) (rs : ℕ → ℚ) : List Particle :=
  let ps2 := normalize_weight n ps
  let pw := ps2.map (fun p => p.w)
  if neff pw < NTH n then copyLoop n ps2 (resampleInds pw n rs)
  else ps2

/-- Embedding of fast_slam1 from the source: predict the particles from the
control, then resample; the observation batch z is received but never read by
the body, whose only statements are the predict call, a comment reading
update with observations, and the resampling call. -/
noncomputable def fast_slam1 (n : ℕ) (ps : List Particle) (u : ℝ × ℝ)
    (z : List (ℝ × ℝ × ℝ)) (noise : ℕ → ℝ × ℝ) (rs : ℕ → ℚ) : List Particle :=
  resampling n (predict_particles ps u noise) rs

/-- Input of one simulated time step: the control, the observation batch, the
per-particle process noise draws, and the uniform draws of the resampler. -/
def StepInput : Type :=
  (ℝ × ℝ) × List (ℝ × ℝ × ℝ) × (ℕ → ℝ × ℝ) × (ℕ → ℚ)

/-- Iterated application of fast_slam1 over a list of step inputs, the loop of
main restricted to the filter calls. -/
noncomputable def runSteps (n : ℕ) (ps : List Particle) :
    List StepInput → List Particle :=
  fun steps => steps.foldl (fun st s => fast_slam1 n st s.1 s.2.1 s.2.2.1 s.2.2.2) ps

/-- Two argument arctangent, the angle of the point with coordinates x, y. -/
noncomputable def atan2 (y x : ℝ) : ℝ := Complex.arg ⟨x, y⟩

/-- Modelled from the spec: calc_final_state is invoked by main in the source
file but is not defined anywhere in it, so the state estimator is modelled
from the specification contract of StateEstimator: the weighted mean of the
particle poses, with the yaw component combined as a circular mean, the
weighted mean of the unit vectors given by cosine and sine fed to the two
argument arctangent. -/
noncomputable def calc_final_state (ps : List Particle) : ℝ × ℝ × ℝ :=
  ((ps.map (fun p => (p.w : ℝ) * p.x)).sum,
   (ps.map (fun p => (p.w : ℝ) * p.y)).sum,
   atan2 ((ps.map (fun p => (p.w : ℝ) * Real.sin p.yaw)).sum)
         ((ps.map (fun p => (p.w : ℝ) * Real.cos p.yaw)).sum))

/-! Reference level model of the resampling copy.  In the source the statement
particles[i].lm = tparticles[inds[i]].lm[:, :] stores a numpy slice of the
source array: a view object sharing the same underlying buffer, so that
writing through either array is observable through the other.  The model below
represents each landmark array by the address of its buffer in a store from
addresses to matrix values; taking a full slice keeps the address.  All
numeric fields are rationals here so that concrete runs are decidable. -/

/-- Particle record of the reference level model: the landmark mean and
covariance fields hold buffer addresses instead of matrix values. -/
structure RParticle where
  w : ℚ
  x : ℚ
  y : ℚ
  yaw : ℚ
  lm : ℕ
  lmP : ℕ

instance : Inhabited RParticle := ⟨⟨0, 0, 0, 0, 0, 0⟩⟩

/-- Reading the landmark mean matrix of a particle from the store. -/
def readLM (σ : ℕ → List (List ℚ)) (p : RParticle) : List (List ℚ) := σ p.lm

/-- Writing a matrix value into the buffer at address a of the store. -/
def writeLM (σ : ℕ → List (List ℚ)) (a : ℕ) (v : List (List ℚ)) :
    ℕ → List (List ℚ) :=
  fun b => if b = a then v else σ b

/-- Reference level normalize_weight, identical in structure to the value
level one. -/
def refNormalize (n : ℕ) (ps : List RParticle) : List RParticle :=
  let sumw := (ps.map (fun p => p.w)).sum
  if sumw = 0 then
    ps.map (fun p => { p with w := 1 / (n : ℚ) })
  else
    ps.map (fun p => { p with w := p.w / sumw })

/-- Reference level copy iteration: the slice assignment copies the buffer
addresses of the landmark fields, not their contents. -/
def refCopyStep (n : ℕ) (st : List RParticle) (i j : ℕ) : List RParticle :=
  st.set i { st.getD j default with w := 1 / (n : ℚ) }

/-- Reference level copy loop of resampling. -/
def refCopyLoop (n : ℕ) (ps : List RParticle) (inds : List ℕ) : List RParticle :=
  (List.range inds.length).foldl (fun st i => refCopyStep n st i (inds.getD i 0)) ps

/-- Reference level resampling, identical in structure to the value level
one. -/
def refResampling (n : ℕ) (ps : List RParticle) (rs : ℕ → ℚ) : List RParticle :=
  let ps2 := refNormalize n ps
  let pw := ps2.map (fun p => p.w)
  if neff pw < NTH n then refCopyLoop n ps2 (resampleInds pw n rs)
  else ps2

/-- Concrete four particle input for the aliasing run: particle k owns the
landmark mean buffer at address k and the covariance buffer at address
10 + k, all buffers distinct; all of the weight sits on particle 0, so that
Neff = 1 is below NTH and resampling triggers, drawing every output slot from
source index 0. -/
def aliasParticles : List RParticle :=
  [⟨1, 0, 0, 0, 0, 10⟩, ⟨0, 0, 0, 0, 1, 11⟩, ⟨0, 0, 0, 0, 2, 12⟩,
   ⟨0, 0, 0, 0, 3, 13⟩]

/-- Output particle list of the aliasing run, with every uniform draw equal to
zero. -/
def aliasOut : List RParticle := refResampling 4 aliasParticles (fun _ => 0)

/-- Store assigning the same two by two zero matrix to every buffer. -/
def store0 : ℕ → List (List ℚ) := fun _ => [[0, 0], [0, 0]]

/-- Concrete particle with weight nine tenths. -/
def p910 : Particle :=
  { w := 9 / 10, x := 0, y := 0, yaw := 0, lm := [], lmP := [] }

/-- Concrete particle with weight one tenth. -/
def p110 : Particle :=
  { w := 1 / 10, x := 0, y := 0, yaw := 0, lm := [], lmP := [] }

/-! Float semantics of the weight normalization path.  The exact rational
model above has no non-finite values, so the behaviour of normalize_weight on
a weight vector with a non-finite sum is modelled separately with an IEEE
style extended value type: division by exactly zero raises the
ZeroDivisionError that the except branch of the source answers, while
division by an infinite or nan sum raises nothing and simply proceeds. -/

/-- Extended value of a Python float weight: a finite value carrying an exact
rational, a signed infinity, or nan.  Rounding of finite values is not
modelled; only the constructor distinctions drive the branches used here. -/
inductive PyFloat : Type
  | fin (q : ℚ)
  | inf
  | ninf
  | nan
deriving DecidableEq

/-- Addition of Python float values: finite plus finite is exact, any nan
operand gives nan, an infinity absorbs finite values and keeps its sign, and
opposite infinities give nan. -/
def pyAdd : PyFloat → PyFloat → PyFloat
  | .nan, _ => .nan
  | _, .nan => .nan
  | .fin a, .fin b => .fin (a + b)
  | .inf, .ninf => .nan
  | .ninf, .inf => .nan
  | .inf, _ => .inf
  | _, .inf => .inf
  | .ninf, _ => .ninf
  | _, .ninf => .ninf

/-- Division of Python float values by a nonzero divisor: nan propagates, a
finite value divided by an infinity is zero, an infinity divided by an
infinity is nan, an infinity divided by a finite value keeps or flips its
sign, and finite by finite is exact.  Division by exactly zero raises
ZeroDivisionError in the source and is handled by the caller, not here. -/
def pyDiv : PyFloat → PyFloat → PyFloat
  | .nan, _ => .nan
  | _, .nan => .nan
  | .fin a, .fin b => .fin (a / b)
  | .fin _, .inf => .fin 0
  | .fin _, .ninf => .fin 0
  | .inf, .inf => .nan
  | .inf, .ninf => .nan
  | .ninf, .inf => .nan
  | .ninf, .ninf => .nan
  | .inf, .fin b => if 0 ≤ b then .inf else .ninf
  | .ninf, .fin b => if 0 ≤ b then .ninf else .inf

/-- Sum of a list of Python float weights, as the builtin sum of the source
computes it: a left fold of addition from zero. -/
def pySum (ws : List PyFloat) : PyFloat := ws.foldl pyAdd (.fin 0)

/-- Float semantics of the weight path of normalize_weight: every weight is
divided by the sum of the weights, and only a division by exactly zero raises
the ZeroDivisionError that the except branch answers by resetting every
weight to 1 / n.  A non-finite sum raises no exception, so the divisions
proceed and no reset happens. -/
def normalize_weight_py (n : ℕ) (ws : List PyFloat) : List PyFloat :=
  if pySum ws = .fin 0 then ws.map (fun _ => .fin (1 / (n : ℚ)))
  else ws.map (fun w => pyDiv w (pySum ws))

/-- A Python float value is finite when it is neither an infinity nor nan. -/
def PyFloat.isFinite : PyFloat → Bool
  | .fin _ => true
  | _ => false

/-! Theorems. -/

/-- For a nonzero divisor, pymod a b equals b times the fractional part of
a / b. -/
lemma pymod_eq_fract (a b : ℝ) (hb : b ≠ 0) :
    pymod a b = b * Int.fract (a / b) := by
  unfold pymod Int.fract
  rw [mul_sub, mul_div_cancel₀ a hb]

lemma pymod_nonneg (a b : ℝ) (hb : 0 < b) : 0 ≤ pymod a b := by
  rw [pymod_eq_fract a b (ne_of_gt hb)]
  exact mul_nonneg hb.le (Int.fract_nonneg _)

lemma pymod_lt (a b : ℝ) (hb : 0 < b) : pymod a b < b := by
  rw [pymod_eq_fract a b (ne_of_gt hb)]
  calc b * Int.fract (a / b) < b * 1 :=
        (mul_lt_mul_left hb).mpr (Int.fract_lt_one _)
    _ = b := mul_one b

/-- C4 counterexample: at the input angle minus pi, the value of pi_2_pi is
minus pi itself, which lies outside the half-open interval from minus pi
exclusive to pi inclusive claimed by the specification. -/
theorem pi_2_pi_interval_counterexample :
    pi_2_pi (-Real.pi) = -Real.pi ∧
      pi_2_pi (-Real.pi) ∉ Set.Ioc (-Real.pi) Real.pi := by
  have h : pi_2_pi (-Real.pi) = -Real.pi := by
    have h0 : -Real.pi + Real.pi = 0 := by ring
    simp [pi_2_pi, pymod, h0]
  refine ⟨h, ?_⟩
  rw [h]
  simp [Set.mem_Ioc]

/-- C4 (amended): for every real input angle, pi_2_pi returns a value in the
half-open interval from minus pi inclusive to pi exclusive, computed as the
formula angle plus pi modulo two pi, minus pi, where the modulo operation
returns a non-negative result. -/
theorem pi_2_pi_range :
    ∀ angle : ℝ,
      pi_2_pi angle ∈ Set.Ico (-Real.pi) Real.pi ∧
      0 ≤ pymod (angle + Real.pi) (2 * Real.pi) ∧
      pi_2_pi angle = pymod (angle + Real.pi) (2 * Real.pi) - Real.pi := by
  intro angle
  have h2pi : (0 : ℝ) < 2 * Real.pi := by positivity
  have hnn := pymod_nonneg (angle + Real.pi) (2 * Real.pi) h2pi
  have hlt := pymod_lt (angle + Real.pi) (2 * Real.pi) h2pi
  refine ⟨⟨?_, ?_⟩, hnn, rfl⟩
  · unfold pi_2_pi; linarith
  · unfold pi_2_pi; linarith

/-- C7: for every pose and control, motion_model returns the pose whose first
two components advance by dt times velocity times the cosine, respectively
sine, of the yaw, and whose yaw advances by dt times the yaw rate and is then
normalized with pi_2_pi.  The embedded function is total and pure by
construction, matching the contract of no side effects and no failure
modes. -/
theorem motion_model_spec :
    ∀ x y yaw v ω : ℝ,
      motion_model (x, y, yaw) (v, ω) =
        (x + DT * v * Real.cos yaw, y + DT * v * Real.sin yaw,
          pi_2_pi (yaw + DT * ω)) := by
  intro x y yaw v ω
  simp only [motion_model, Prod.mk.injEq]
  refine ⟨by ring, by ring, ?_⟩
  congr 1
  ring

/-- C3: the slice assignments of the resampling copy loop share buffers
between output particles.  In the concrete triggered run aliasOut the output
particles at slots 0 and 1 are both drawn from source index 0 and end up with
the same landmark mean buffer address, so writing a matrix through the buffer
of slot 0 is observed when reading the landmark data of slot 1, refuting the
claim that output particles are independent deep copies. -/
theorem resampling_aliases_landmark_buffers :
    (aliasOut.getD 0 default).lm = (aliasOut.getD 1 default).lm ∧
      readLM (writeLM store0 ((aliasOut.getD 0 default).lm) [[5, 5], [5, 5]])
          (aliasOut.getD 1 default) = [[5, 5], [5, 5]] ∧
      readLM store0 (aliasOut.getD 1 default) = [[0, 0], [0, 0]] := by
  norm_num [aliasOut, aliasParticles, refResampling, refNormalize, neff, NTH,
    cumsum, resampleid, resampleInds, scanLoop, selectIdx, refCopyLoop,
    refCopyStep, readLM, writeLM, store0, List.range_succ]

/-- C1: the per step pipeline of fast_slam1 contains no associate or update
stage: the function is constant in its observation batch argument, and its
value is exactly the resampling of the predicted particles, so the weights fed
to the resampler cannot reflect the observations of the current step. -/
theorem fast_slam1_has_no_update_stage :
    ∀ (n : ℕ) (ps : List Particle) (u : ℝ × ℝ) (z₁ z₂ : List (ℝ × ℝ × ℝ))
      (noise : ℕ → ℝ × ℝ) (rs : ℕ → ℚ),
      fast_slam1 n ps u z₁ noise rs = fast_slam1 n ps u z₂ noise rs ∧
      fast_slam1 n ps u z₁ noise rs =
        resampling n (predict_particles ps u noise) rs := by
  intro n ps u z₁ z₂ noise rs
  exact ⟨rfl, rfl⟩

/-- C9: at construction the particle set has exactly n particles, each with
weight 1 / n, pose at the origin, and all landmark mean and covariance entries
zero, populated from no external ground truth. -/
theorem initial_particles_spec :
    ∀ n nlm : ℕ,
      (initParticles n nlm).length = n ∧
      ∀ p ∈ initParticles n nlm,
        p.w = 1 / (n : ℚ) ∧ p.x = 0 ∧ p.y = 0 ∧ p.yaw = 0 ∧
        (∀ v ∈ p.lm, v = (0, 0)) ∧ (∀ v ∈ p.lmP, v = (0, 0)) := by
  intro n nlm
  refine ⟨List.length_replicate _ _, ?_⟩
  intro p hp
  have hp' := List.eq_of_mem_replicate hp
  subst hp'
  refine ⟨rfl, rfl, rfl, rfl, ?_, ?_⟩ <;>
    exact fun v hv => List.eq_of_mem_replicate hv

lemma predictAux_length (u : ℝ × ℝ) (noise : ℕ → ℝ × ℝ) :
    ∀ (ps : List Particle) (i : ℕ), (predictAux u noise i ps).length = ps.length := by
  intro ps
  induction ps with
  | nil => intro i; rfl
  | cons p ps ih => intro i; simp [predictAux, ih]

lemma predict_particles_length (ps : List Particle) (u : ℝ × ℝ)
    (noise : ℕ → ℝ × ℝ) : (predict_particles ps u noise).length = ps.length :=
  predictAux_length u noise ps 0

lemma normalize_weight_length (n : ℕ) (ps : List Particle) :
    (normalize_weight n ps).length = ps.length := by
  unfold normalize_weight
  dsimp only
  split <;> simp

lemma foldl_copyStep_length (n : ℕ) (inds : List ℕ) :
    ∀ (l : List ℕ) (st : List Particle),
      (l.foldl (fun st i => copyStep n st i (inds.getD i 0)) st).length = st.length := by
  intro l
  induction l with
  | nil => intro st; rfl
  | cons a l ih => intro st; rw [List.foldl_cons, ih]; simp [copyStep]

lemma copyLoop_length (n : ℕ) (ps : List Particle) (inds : List ℕ) :
    (copyLoop n ps inds).length = ps.length :=
  foldl_copyStep_length n inds (List.range inds.length) ps

/-- Unfolding of resampling into its conditional shape. -/
lemma resampling_eq (n : ℕ) (ps : List Particle) (rs : ℕ → ℚ) :
    resampling n ps rs =
      if neff ((normalize_weight n ps).map (fun p => p.w)) < NTH n then
        copyLoop n (normalize_weight n ps)
          (resampleInds ((normalize_weight n ps).map (fun p => p.w)) n rs)
      else normalize_weight n ps := rfl

lemma resampling_length (n : ℕ) (ps : List Particle) (rs : ℕ → ℚ) :
    (resampling n ps rs).length = ps.length := by
  rw [resampling_eq]
  split <;> simp [copyLoop_length, normalize_weight_length]

lemma fast_slam1_length (n : ℕ) (ps : List Particle) (u : ℝ × ℝ)
    (z : List (ℝ × ℝ × ℝ)) (noise : ℕ → ℝ × ℝ) (rs : ℕ → ℚ) :
    (fast_slam1 n ps u z noise rs).length = ps.length := by
  unfold fast_slam1
  rw [resampling_length, predict_particles_length]

lemma runSteps_length (n : ℕ) :
    ∀ (steps : List StepInput) (ps : List Particle),
      (runSteps n ps steps).length = ps.length := by
  intro steps
  induction steps with
  | nil => intro ps; rfl
  | cons s ss ih =>
    intro ps
    show (runSteps n (fast_slam1 n ps s.1 s.2.1 s.2.2.1 s.2.2.2) ss).length = _
    rw [ih, fast_slam1_length]

/-- C8: for every n and every sequence of filter cycles applied to a particle
set constructed with n particles, the set contains exactly n particles after
every cycle; in particular resampling preserves the particle count of any
particle list exactly. -/
theorem particle_count_invariant :
    ∀ (n nlm : ℕ) (steps : List StepInput),
      (runSteps n (initParticles n nlm) steps).length = n ∧
      ∀ (ps : List Particle) (rs : ℕ → ℚ),
        (resampling n ps rs).length = ps.length := by
  intro n nlm steps
  refine ⟨?_, fun ps rs => resampling_length n ps rs⟩
  rw [runSteps_length, initParticles, List.length_replicate]

lemma predictAux_weights (u : ℝ × ℝ) (noise : ℕ → ℝ × ℝ) :
    ∀ (ps : List Particle) (i : ℕ),
      (predictAux u noise i ps).map (fun p => p.w) = ps.map (fun p => p.w) := by
  intro ps
  induction ps with
  | nil => intro i; rfl
  | cons p ps ih => intro i; simp [predictAux, predictOne, ih]

lemma predict_particles_weights (ps : List Particle) (u : ℝ × ℝ)
    (noise : ℕ → ℝ × ℝ) :
    (predict_particles ps u noise).map (fun p => p.w) = ps.map (fun p => p.w) :=
  predictAux_weights u noise ps 0

/-- Unfolding of normalize_weight in the zero sum branch. -/
lemma normalize_weight_zero (n : ℕ) (ps : List Particle)
    (h : (ps.map (fun p => p.w)).sum = 0) :
    normalize_weight n ps = ps.map (fun p => { p with w := 1 / (n : ℚ) }) := by
  unfold normalize_weight
  rw [if_pos h]

/-- Unfolding of normalize_weight in the nonzero sum branch. -/
lemma normalize_weight_nonzero (n : ℕ) (ps : List Particle)
    (h : (ps.map (fun p => p.w)).sum ≠ 0) :
    normalize_weight n ps =
      ps.map (fun p => { p with w := p.w / (ps.map (fun p => p.w)).sum }) := by
  unfold normalize_weight
  rw [if_neg h]

lemma weights_normalize_zero (n : ℕ) (ps : List Particle)
    (h : (ps.map (fun p => p.w)).sum = 0) :
    (normalize_weight n ps).map (fun p => p.w) =
      List.replicate ps.length (1 / (n : ℚ)) := by
  rw [normalize_weight_zero n ps h, List.map_map]
  have hc : ((fun p => p.w) ∘ fun p : Particle => { p with w := 1 / (n : ℚ) }) =
      fun _ => 1 / (n : ℚ) := rfl
  rw [hc, List.map_const']

lemma map_w_uniform (ps : List Particle) (c : ℚ) (m : ℕ) (hl : ps.length = m)
    (hw : ∀ p ∈ ps, p.w = c) :
    ps.map (fun p => p.w) = List.replicate m c := by
  refine List.eq_replicate_iff.2 ⟨by simp [hl], ?_⟩
  intro b hb
  obtain ⟨p, hp, hpb⟩ := List.mem_map.1 hb
  rw [← hpb]
  exact hw p hp

lemma sum_map_div (l : List ℚ) (s : ℚ) :
    (l.map (fun x => x / s)).sum = l.sum / s := by
  induction l with
  | nil => simp
  | cons a l ih => simp [ih, add_div]

lemma sum_uniform (n : ℕ) (h1 : 1 ≤ n) :
    (List.replicate n ((1 : ℚ) / n)).sum = 1 := by
  rw [List.sum_replicate, nsmul_eq_mul]
  have hn : (n : ℚ) ≠ 0 := Nat.cast_ne_zero.2 (by omega)
  field_simp

lemma neff_uniform (n : ℕ) (h1 : 1 ≤ n) :
    neff (List.replicate n ((1 : ℚ) / n)) = n := by
  unfold neff
  rw [List.map_replicate, List.sum_replicate, nsmul_eq_mul]
  have hn : (n : ℚ) ≠ 0 := Nat.cast_ne_zero.2 (by omega)
  have h : (n : ℚ) * (1 / n * (1 / n)) = 1 / n := by field_simp
  rw [h, one_div_one_div]

lemma no_trigger_uniform (n : ℕ) (h1 : 1 ≤ n) :
    ¬ neff (List.replicate n ((1 : ℚ) / n)) < NTH n := by
  rw [neff_uniform n h1, NTH, not_lt]
  have hn : (0 : ℚ) < n := by exact_mod_cast Nat.pos_of_ne_zero (by omega)
  rw [div_le_iff₀ (by norm_num : (0 : ℚ) < 1.5)]
  nlinarith

lemma resampling_of_uniform (n : ℕ) (ps : List Particle) (rs : ℕ → ℚ)
    (h1 : 1 ≤ n)
    (hw : (normalize_weight n ps).map (fun p => p.w) =
      List.replicate n (1 / (n : ℚ))) :
    resampling n ps rs = normalize_weight n ps := by
  rw [resampling_eq, hw, if_neg (no_trigger_uniform n h1)]

/-- C6 counterexample: at the concrete weight vector with an infinite first
weight and a finite second weight the sum is non-finite, yet normalize_weight
under float semantics does not reset the weights to 1 / n: only a division by
exactly zero raises the ZeroDivisionError that the except branch catches, so
the divisions by the infinite sum proceed and return nan and zero.  This
refutes the claimed reset to 1 / N in the non-finite sum case. -/
theorem normalize_weight_nonfinite_counterexample :
    PyFloat.isFinite (pySum [PyFloat.inf, PyFloat.fin 1]) = false ∧
    normalize_weight_py 2 [PyFloat.inf, PyFloat.fin 1] =
      [PyFloat.nan, PyFloat.fin 0] ∧
    ¬ (∀ w ∈ normalize_weight_py 2 [PyFloat.inf, PyFloat.fin 1],
        w = PyFloat.fin (1 / (2 : ℚ))) := by
  have heq : normalize_weight_py 2 [PyFloat.inf, PyFloat.fin 1] =
      [PyFloat.nan, PyFloat.fin 0] := rfl
  refine ⟨rfl, heq, ?_⟩
  intro h
  have h1 := h PyFloat.nan (by rw [heq]; exact List.mem_cons_self _ _)
  exact PyFloat.noConfusion h1

/-- C6 (amended): if the sum of the particle weights is exactly zero at
normalization time then every weight is reset to exactly 1 / n and resampling
leaves the particle set at the normalized value without redrawing, because
the uniform weights put Neff = n at or above NTH; and for any weight vector
with positive finite sum the normalized weights sum to exactly 1.  A
non-finite sum is not detected by the source, which catches only
ZeroDivisionError, and performs no reset there. -/
theorem normalize_weight_fallback (n : ℕ) (ps : List Particle) (rs : ℕ → ℚ)
    (h1 : 1 ≤ n) (hl : ps.length = n) :
    ((ps.map (fun p => p.w)).sum = 0 →
        (∀ p ∈ normalize_weight n ps, p.w = 1 / (n : ℚ)) ∧
        resampling n ps rs = normalize_weight n ps) ∧
    (0 < (ps.map (fun p => p.w)).sum →
        ((normalize_weight n ps).map (fun p => p.w)).sum = 1) := by
  constructor
  · intro h0
    constructor
    · intro p hp
      rw [normalize_weight_zero n ps h0] at hp
      obtain ⟨q, hq, hqp⟩ := List.mem_map.1 hp
      rw [← hqp]
    · exact resampling_of_uniform n ps rs h1
        (by rw [weights_normalize_zero n ps h0, hl])
  · intro hpos
    have hs : (ps.map (fun p => p.w)).sum ≠ 0 := ne_of_gt hpos
    rw [normalize_weight_nonzero n ps hs, List.map_map]
    have hc : ((fun p : Particle => p.w) ∘
        fun p : Particle => { p with w := p.w / (ps.map (fun p => p.w)).sum }) =
        fun p : Particle => p.w / (ps.map (fun p => p.w)).sum := rfl
    rw [hc]
    have hm : ps.map (fun p => p.w / (ps.map (fun p => p.w)).sum) =
        (ps.map (fun p => p.w)).map
          (fun x => x / (ps.map (fun p => p.w)).sum) := by
      rw [List.map_map]; rfl
    rw [hm, sum_map_div, div_self hs]

/-- Witness for C6 at two concrete inputs: a two particle set with both
weights zero is reset to weights one half and the resampler returns the
normalized set unchanged, and a two particle set with weights one half sums to
one after normalization. -/
theorem normalize_weight_fallback_witness :
    ((∀ p ∈ normalize_weight 2 [pzero, pzero], p.w = 1 / (2 : ℚ)) ∧
      resampling 2 [pzero, pzero] (fun _ => 0) =
        normalize_weight 2 [pzero, pzero]) ∧
    ((normalize_weight 2 [Particle.init 2 0, Particle.init 2 0]).map
        (fun p => p.w)).sum = 1 := by
  constructor
  · exact (normalize_weight_fallback 2 [pzero, pzero] (fun _ => 0)
      (by norm_num) rfl).1 (by norm_num [pzero])
  · exact (normalize_weight_fallback 2 [Particle.init 2 0, Particle.init 2 0]
      (fun _ => 0) (by norm_num) rfl).2 (by norm_num [Particle.init])

lemma uniform_step (n : ℕ) (ps : List Particle) (u : ℝ × ℝ)
    (z : List (ℝ × ℝ × ℝ)) (noise : ℕ → ℝ × ℝ) (rs : ℕ → ℚ)
    (h1 : 1 ≤ n) (hl : ps.length = n) (hw : ∀ p ∈ ps, p.w = 1 / (n : ℚ)) :
    fast_slam1 n ps u z noise rs =
      normalize_weight n (predict_particles ps u noise) ∧
    (fast_slam1 n ps u z noise rs).length = n ∧
    (∀ p ∈ fast_slam1 n ps u z noise rs, p.w = 1 / (n : ℚ)) ∧
    ¬ neff ((normalize_weight n (predict_particles ps u noise)).map
        (fun p => p.w)) < NTH n := by
  have hqw : (predict_particles ps u noise).map (fun p => p.w) =
      List.replicate n (1 / (n : ℚ)) := by
    rw [predict_particles_weights]
    exact map_w_uniform ps _ n hl hw
  have hsum : ((predict_particles ps u noise).map (fun p => p.w)).sum = 1 := by
    rw [hqw]; exact sum_uniform n h1
  have hs0 : ((predict_particles ps u noise).map (fun p => p.w)).sum ≠ 0 := by
    rw [hsum]; norm_num
  have hnw : (normalize_weight n (predict_particles ps u noise)).map
      (fun p => p.w) = List.replicate n (1 / (n : ℚ)) := by
    rw [normalize_weight_nonzero _ _ hs0, List.map_map]
    have hc : ((fun p : Particle => p.w) ∘ fun p : Particle =>
        { p with w := p.w /
            ((predict_particles ps u noise).map (fun p => p.w)).sum }) =
        fun p : Particle =>
          p.w / ((predict_particles ps u noise).map (fun p => p.w)).sum := rfl
    rw [hc]
    have hm : (predict_particles ps u noise).map (fun p =>
        p.w / ((predict_particles ps u noise).map (fun p => p.w)).sum) =
        ((predict_particles ps u noise).map (fun p => p.w)).map
          (fun x => x / ((predict_particles ps u noise).map (fun p => p.w)).sum) := by
      rw [List.map_map]; rfl
    rw [hm, hsum, hqw, List.map_replicate]
    simp
  have heq : fast_slam1 n ps u z noise rs =
      normalize_weight n (predict_particles ps u noise) :=
    resampling_of_uniform n _ rs h1 hnw
  refine ⟨heq, ?_, ?_, ?_⟩
  · rw [heq, normalize_weight_length, predict_particles_length, hl]
  · intro p hp
    rw [heq] at hp
    have hmem : p.w ∈ (normalize_weight n (predict_particles ps u noise)).map
        (fun p => p.w) := List.mem_map_of_mem _ hp
    rw [hnw] at hmem
    exact List.eq_of_mem_replicate hmem
  · rw [hnw]
    exact no_trigger_uniform n h1

lemma runSteps_uniform (n : ℕ) (h1 : 1 ≤ n) :
    ∀ (steps : List StepInput) (ps : List Particle),
      ps.length = n → (∀ p ∈ ps, p.w = 1 / (n : ℚ)) →
      (runSteps n ps steps).length = n ∧
      ∀ p ∈ runSteps n ps steps, p.w = 1 / (n : ℚ) := by
  intro steps
  induction steps with
  | nil => intro ps hl hw; exact ⟨hl, hw⟩
  | cons s ss ih =>
    intro ps hl hw
    have hstep := uniform_step n ps s.1 s.2.1 s.2.2.1 s.2.2.2 h1 hl hw
    show (runSteps n (fast_slam1 n ps s.1 s.2.1 s.2.2.1 s.2.2.2) ss).length = n ∧ _
    exact ih _ hstep.2.1 hstep.2.2.1

/-- C10: a particle set with all n weights equal to 1 / n is a fixed point of
the weights under one application of fast_slam1, which moreover returns
exactly the normalized predicted set because the uniform weights keep Neff at
n, at or above NTH, so the resampling branch is not taken; consequently every
particle set reachable from the initial construction by filter steps keeps all
weights exactly 1 / n. -/
theorem uniform_weights_invariant (n : ℕ) (ps : List Particle) (u : ℝ × ℝ)
    (z : List (ℝ × ℝ × ℝ)) (noise : ℕ → ℝ × ℝ) (rs : ℕ → ℚ)
    (h1 : 1 ≤ n) (hl : ps.length = n) (hw : ∀ p ∈ ps, p.w = 1 / (n : ℚ)) :
    (∀ p ∈ fast_slam1 n ps u z noise rs, p.w = 1 / (n : ℚ)) ∧
    fast_slam1 n ps u z noise rs =
      normalize_weight n (predict_particles ps u noise) ∧
    ¬ neff ((normalize_weight n (predict_particles ps u noise)).map
        (fun p => p.w)) < NTH n ∧
    ∀ (nlm : ℕ) (steps : List StepInput),
      ∀ p ∈ runSteps n (initParticles n nlm) steps, p.w = 1 / (n : ℚ) := by
  have hstep := uniform_step n ps u z noise rs h1 hl hw
  refine ⟨hstep.2.2.1, hstep.1, hstep.2.2.2, ?_⟩
  intro nlm steps
  refine (runSteps_uniform n h1 steps (initParticles n nlm) ?_ ?_).2
  · rw [initParticles, List.length_replicate]
  · intro p hp
    have hp' := List.eq_of_mem_replicate hp
    subst hp'
    rfl

/-- Witness for C10 at a concrete input: two particles at uniform weight one
half, zero control, empty observation batch, zero noise and zero uniform
draws. -/
theorem uniform_weights_invariant_witness :
    (∀ p ∈ fast_slam1 2 (initParticles 2 3) (0, 0) [] (fun _ => (0, 0))
        (fun _ => 0), p.w = 1 / (2 : ℚ)) ∧
    fast_slam1 2 (initParticles 2 3) (0, 0) [] (fun _ => (0, 0)) (fun _ => 0) =
      normalize_weight 2 (predict_particles (initParticles 2 3) (0, 0)
        (fun _ => (0, 0))) ∧
    ¬ neff ((normalize_weight 2 (predict_particles (initParticles 2 3) (0, 0)
        (fun _ => (0, 0)))).map (fun p => p.w)) < NTH 2 ∧
    ∀ (nlm : ℕ) (steps : List StepInput),
      ∀ p ∈ runSteps 2 (initParticles 2 nlm) steps, p.w = 1 / (2 : ℚ) :=
  uniform_weights_invariant 2 (initParticles 2 3) (0, 0) [] (fun _ => (0, 0))
    (fun _ => 0) (by norm_num) rfl
    (fun p hp => by
      have hp' := List.eq_of_mem_replicate hp
      subst hp'
      rfl)

/-- C2: the state estimator returns, for every particle set, the weighted
mean of the particle poses, with the yaw component obtained as the two
argument arctangent of the weighted sums of the unit vectors, a circular
combination whose value always lies in the interval from minus pi exclusive
to pi inclusive, rather than a naive linear average of the yaw values. -/
theorem calc_final_state_spec :
    ∀ ps : List Particle,
      calc_final_state ps =
        ((ps.map (fun p => (p.w : ℝ) * p.x)).sum,
         (ps.map (fun p => (p.w : ℝ) * p.y)).sum,
         atan2 ((ps.map (fun p => (p.w : ℝ) * Real.sin p.yaw)).sum)
               ((ps.map (fun p => (p.w : ℝ) * Real.cos p.yaw)).sum)) ∧
      (calc_final_state ps).2.2 ∈ Set.Ioc (-Real.pi) Real.pi := by
  intro ps
  exact ⟨rfl, Complex.arg_mem_Ioc _⟩

lemma selectIdx_ge (wcum : List ℚ) (t : ℚ) :
    ∀ (fuel ind : ℕ), ind ≤ selectIdx wcum t fuel ind := by
  intro fuel
  induction fuel with
  | zero => intro ind; simp [selectIdx]
  | succ fuel ih =>
    intro ind
    by_cases h : ind < wcum.length - 1 ∧ wcum.getD ind 0 < t
    · simp only [selectIdx, if_pos h]
      exact le_trans (Nat.le_succ ind) (ih (ind + 1))
    · simp only [selectIdx, if_neg h]
      exact le_refl ind

lemma selectIdx_below (wcum : List ℚ) (t : ℚ) :
    ∀ (fuel ind m : ℕ), ind ≤ m → m < selectIdx wcum t fuel ind →
      m < wcum.length - 1 ∧ wcum.getD m 0 < t := by
  intro fuel
  induction fuel with
  | zero =>
    intro ind m h1 h2
    simp only [selectIdx] at h2
    omega
  | succ fuel ih =>
    intro ind m h1 h2
    by_cases h : ind < wcum.length - 1 ∧ wcum.getD ind 0 < t
    · simp only [selectIdx, if_pos h] at h2
      rcases eq_or_lt_of_le h1 with rfl | hlt
      · exact h
      · exact ih (ind + 1) m hlt h2
    · simp only [selectIdx, if_neg h] at h2
      omega

lemma selectIdx_le (wcum : List ℚ) (t : ℚ) :
    ∀ (fuel ind : ℕ), ind ≤ wcum.length - 1 →
      selectIdx wcum t fuel ind ≤ wcum.length - 1 := by
  intro fuel
  induction fuel with
  | zero => intro ind h; simpa [selectIdx] using h
  | succ fuel ih =>
    intro ind h
    by_cases hc : ind < wcum.length - 1 ∧ wcum.getD ind 0 < t
    · simp only [selectIdx, if_pos hc]
      exact ih (ind + 1) (by omega)
    · simp only [selectIdx, if_neg hc]
      exact h

lemma selectIdx_stop (wcum : List ℚ) (t : ℚ) :
    ∀ (fuel ind : ℕ), wcum.length - 1 - ind ≤ fuel →
      ¬(selectIdx wcum t fuel ind < wcum.length - 1 ∧
        wcum.getD (selectIdx wcum t fuel ind) 0 < t) := by
  intro fuel
  induction fuel with
  | zero =>
    intro ind h
    simp only [selectIdx]
    rintro ⟨ha, _⟩
    omega
  | succ fuel ih =>
    intro ind h
    by_cases hc : ind < wcum.length - 1 ∧ wcum.getD ind 0 < t
    · simp only [selectIdx, if_pos hc]
      exact ih (ind + 1) (by omega)
    · simp only [selectIdx, if_neg hc]
      exact hc

/-- The while loop of the scan, started at ind with everything before ind
already below the target, returns the least index whose cumulative weight
reaches the target, provided some index reaches it. -/
lemma selectIdx_least (wcum : List ℚ) (t : ℚ) (ind : ℕ)
    (hind : ∀ m < ind, wcum.getD m 0 < t)
    (hind2 : ind ≤ wcum.length - 1)
    (hex : ∃ j, j < wcum.length ∧ t ≤ wcum.getD j 0) :
    selectIdx wcum t wcum.length ind < wcum.length ∧
    t ≤ wcum.getD (selectIdx wcum t wcum.length ind) 0 ∧
    ∀ m < selectIdx wcum t wcum.length ind, wcum.getD m 0 < t := by
  obtain ⟨j, hj, hjt⟩ := hex
  have hlen : 1 ≤ wcum.length := by omega
  have hge := selectIdx_ge wcum t wcum.length ind
  have hle := selectIdx_le wcum t wcum.length ind hind2
  have hbelow : ∀ m < selectIdx wcum t wcum.length ind, wcum.getD m 0 < t := by
    intro m hm
    by_cases h1 : m < ind
    · exact hind m h1
    · exact (selectIdx_below wcum t wcum.length ind m (by omega) hm).2
  have hstop := selectIdx_stop wcum t wcum.length ind (by omega)
  refine ⟨by omega, ?_, hbelow⟩
  by_cases hrl : selectIdx wcum t wcum.length ind < wcum.length - 1
  · by_contra hcon
    exact hstop ⟨hrl, not_le.1 hcon⟩
  · by_contra hcon
    have hall : ∀ m, m < wcum.length → wcum.getD m 0 < t := by
      intro m hm
      by_cases hmr : m < selectIdx wcum t wcum.length ind
      · exact hbelow m hmr
      · have hmeq : m = selectIdx wcum t wcum.length ind := by omega
        rw [hmeq]
        exact not_le.1 hcon
    exact absurd hjt (not_le.2 (hall j hj))

/-- The outer scan, carrying its index across a sorted target list, selects
for each target that some cumulative weight reaches the least index whose
cumulative weight reaches it. -/
lemma scanLoop_spec (wcum : List ℚ) :
    ∀ (ts : List ℚ) (ind : ℕ),
      (∀ m < ind, ∀ t ∈ ts, wcum.getD m 0 < t) →
      ind ≤ wcum.length - 1 →
      ts.Pairwise (· ≤ ·) →
      ∀ i, i < ts.length →
        (∃ j, j < wcum.length ∧ ts.getD i 0 ≤ wcum.getD j 0) →
        (scanLoop wcum ind ts).getD i 0 < wcum.length ∧
        ts.getD i 0 ≤ wcum.getD ((scanLoop wcum ind ts).getD i 0) 0 ∧
        ∀ m < (scanLoop wcum ind ts).getD i 0,
          wcum.getD m 0 < ts.getD i 0 := by
  intro ts
  induction ts with
  | nil => intro ind _ _ _ i hi; simp at hi
  | cons t ts ih =>
    intro ind hinv hind2 hsort i hi hex
    rcases List.pairwise_cons.1 hsort with ⟨hhead, htail⟩
    cases i with
    | zero =>
      have h := selectIdx_least wcum t ind
        (fun m hm => hinv m hm t (List.mem_cons_self t ts)) hind2
        (by simpa [List.getD_cons_zero] using hex)
      simpa [scanLoop, List.getD_cons_zero] using h
    | succ i =>
      have hr_le := selectIdx_le wcum t wcum.length ind hind2
      have hinv2 : ∀ m < selectIdx wcum t wcum.length ind,
          ∀ t2 ∈ ts, wcum.getD m 0 < t2 := by
        intro m hm t2 ht2
        have hms : wcum.getD m 0 < t := by
          by_cases h1 : m < ind
          · exact hinv m h1 t (List.mem_cons_self t ts)
          · exact (selectIdx_below wcum t wcum.length ind m (by omega) hm).2
        exact lt_of_lt_of_le hms (hhead t2 ht2)
      have h := ih (selectIdx wcum t wcum.length ind) hinv2 hr_le htail i
        (by simpa using hi) (by simpa [List.getD_cons_succ] using hex)
      simpa [scanLoop, List.getD_cons_succ] using h

lemma resampleid_length (n : ℕ) (rs : ℕ → ℚ) :
    (resampleid n rs).length = n := by
  simp [resampleid]

lemma resampleid_getD (n : ℕ) (rs : ℕ → ℚ) (i : ℕ) (h : i < n) :
    (resampleid n rs).getD i 0 = (i : ℚ) / n + rs i / n := by
  unfold resampleid
  rw [List.getD_eq_getElem?_getD]
  simp [List.getElem?_map, List.getElem?_range, h]

lemma resampleid_pairwise (n : ℕ) (rs : ℕ → ℚ)
    (hrs : ∀ i, 0 ≤ rs i ∧ rs i < 1) :
    (resampleid n rs).Pairwise (· ≤ ·) := by
  unfold resampleid
  rw [List.pairwise_map]
  refine (List.pairwise_lt_range n).imp ?_
  intro i j hij
  by_cases hn : n = 0
  · subst hn; simp
  · have hn' : (0 : ℚ) < n := by
      exact_mod_cast Nat.pos_of_ne_zero hn
    rw [div_add_div_same, div_add_div_same, div_le_div_iff_of_pos_right hn']
    have hij' : (i : ℚ) + 1 ≤ (j : ℚ) := by exact_mod_cast hij
    linarith [(hrs i).2, (hrs j).1]

/-- C5 counterexample: in a run on two particles with weights nine tenths and
one tenth the effective particle number lies below NTH so resampling is
triggered, and with drawn uniform values 0 and nine tenths the computed
targets are 0 and nineteen twentieths, which are not of the form of a single
offset plus i / N for any single offset: the code draws one independent
uniform offset per output slot, not one shared offset. -/
theorem resampling_single_offset_counterexample :
    neff [9 / 10, 1 / 10] < NTH 2 ∧
    ¬ ∃ r₀ : ℚ, (0 ≤ r₀ ∧ r₀ < 1 / 2) ∧
        ∀ i, i < 2 →
          (resampleid 2 (fun j => if j = 1 then 9 / 10 else 0)).getD i 0 =
            r₀ + (i : ℚ) / 2 := by
  constructor
  · norm_num [neff, NTH]
  · rintro ⟨r₀, _, h⟩
    have h0 := h 0 (by norm_num)
    have h1 := h 1 (by norm_num)
    norm_num [resampleid, List.range_succ] at h0 h1
    linarith

/-- C5 (amended): when resampling is triggered, the resampler performs
stratified resampling: it draws one independent uniform offset per output
slot, so that slot i receives the target i / n plus an offset lying in the
interval from 0 inclusive to 1 / n exclusive, and for each target it selects
the smallest index j such that the cumulative normalized weight at j reaches
the target, whenever some index reaches it. -/
theorem resampling_stratified (n : ℕ) (ps : List Particle) (rs : ℕ → ℚ)
    (h1 : 1 ≤ n)
    (hrs : ∀ i, 0 ≤ rs i ∧ rs i < 1)
    (htrig : neff ((normalize_weight n ps).map (fun p => p.w)) < NTH n) :
    resampling n ps rs =
      copyLoop n (normalize_weight n ps)
        (resampleInds ((normalize_weight n ps).map (fun p => p.w)) n rs) ∧
    (∀ i, i < n →
      (resampleid n rs).getD i 0 = (i : ℚ) / n + rs i / n ∧
      0 ≤ rs i / n ∧ rs i / n < 1 / n) ∧
    (∀ i, i < n →
      (∃ j, j < (cumsum ((normalize_weight n ps).map (fun p => p.w))).length ∧
          (resampleid n rs).getD i 0 ≤
            (cumsum ((normalize_weight n ps).map (fun p => p.w))).getD j 0) →
      (resampleInds ((normalize_weight n ps).map (fun p => p.w)) n rs).getD i 0 <
          (cumsum ((normalize_weight n ps).map (fun p => p.w))).length ∧
      (resampleid n rs).getD i 0 ≤
        (cumsum ((normalize_weight n ps).map (fun p => p.w))).getD
          ((resampleInds ((normalize_weight n ps).map (fun p => p.w)) n rs).getD
            i 0) 0 ∧
      ∀ m < (resampleInds ((normalize_weight n ps).map (fun p => p.w)) n
          rs).getD i 0,
        (cumsum ((normalize_weight n ps).map (fun p => p.w))).getD m 0 <
          (resampleid n rs).getD i 0) := by
  have hn' : (0 : ℚ) < n := by exact_mod_cast Nat.pos_of_ne_zero (by omega)
  refine ⟨?_, ?_, ?_⟩
  · rw [resampling_eq, if_pos htrig]
  · intro i hi
    refine ⟨resampleid_getD n rs i hi, div_nonneg (hrs i).1 hn'.le, ?_⟩
    exact div_lt_div_of_pos_right (hrs i).2 hn'
  · intro i hi hex
    exact scanLoop_spec (cumsum ((normalize_weight n ps).map (fun p => p.w)))
      (resampleid n rs) 0 (fun m hm => absurd hm (Nat.not_lt_zero m))
      (Nat.zero_le _) (resampleid_pairwise n rs hrs) i
      (by rw [resampleid_length]; exact hi) hex

/-- Witness for C5 (amended) at a concrete triggered input: two particles
with weights nine tenths and one tenth, and uniform draws 0 and nine
tenths. -/
theorem resampling_stratified_witness :
    (resampling 2 [p910, p110] (fun j => if j = 1 then 9 / 10 else 0) =
      copyLoop 2 (normalize_weight 2 [p910, p110])
        (resampleInds ((normalize_weight 2 [p910, p110]).map (fun p => p.w)) 2
          (fun j => if j = 1 then 9 / 10 else 0))) ∧
    (∀ i, i < 2 →
      (resampleid 2 (fun j => if j = 1 then 9 / 10 else 0)).getD i 0 =
        (i : ℚ) / 2 + (if i = 1 then (9 : ℚ) / 10 else 0) / 2 ∧
      0 ≤ (if i = 1 then (9 : ℚ) / 10 else 0) / 2 ∧
      (if i = 1 then (9 : ℚ) / 10 else 0) / 2 < 1 / 2) ∧
    (∀ i, i < 2 →
      (∃ j, j < (cumsum ((normalize_weight 2 [p910, p110]).map
          (fun p => p.w))).length ∧
          (resampleid 2 (fun j => if j = 1 then 9 / 10 else 0)).getD i 0 ≤
            (cumsum ((normalize_weight 2 [p910, p110]).map
              (fun p => p.w))).getD j 0) →
      (resampleInds ((normalize_weight 2 [p910, p110]).map (fun p => p.w)) 2
          (fun j => if j = 1 then 9 / 10 else 0)).getD i 0 <
          (cumsum ((normalize_weight 2 [p910, p110]).map (fun p => p.w))).length ∧
      (resampleid 2 (fun j => if j = 1 then 9 / 10 else 0)).getD i 0 ≤
        (cumsum ((normalize_weight 2 [p910, p110]).map (fun p => p.w))).getD
          ((resampleInds ((normalize_weight 2 [p910, p110]).map (fun p => p.w))
            2 (fun j => if j = 1 then 9 / 10 else 0)).getD i 0) 0 ∧
      ∀ m < (resampleInds ((normalize_weight 2 [p910, p110]).map
          (fun p => p.w)) 2 (fun j => if j = 1 then 9 / 10 else 0)).getD i 0,
        (cumsum ((normalize_weight 2 [p910, p110]).map (fun p => p.w))).getD
            m 0 <
          (resampleid 2 (fun j => if j = 1 then 9 / 10 else 0)).getD i 0) :=
  resampling_stratified 2 [p910, p110] (fun j => if j = 1 then 9 / 10 else 0)
    (by norm_num)
    (by intro i; dsimp only; split <;> norm_num)
    (by norm_num [normalize_weight, neff, NTH, p910, p110])

end FastSLAM
